import Mathlib

/-!
# Vite `DistGraph` (src/distgraph.hpp): range partition of a distributed graph

A shallow embedding of the class `DistGraph` and of the queries it answers
against its partition table, followed by the properties proved about them.

Conventions of the embedding.

* `GraphElem` (declared in `graph.hpp`) is a signed integer type.  The
  queries embedded here only store and compare `GraphElem` values, which
  are `Int`s; `printStats`, which multiplies and adds them, does so modulo
  `2 ^ bits`, the width being a parameter.
* A `PartRanges` is a `std::vector<GraphElem>`: a `List Int`.  A pointer to
  one (`PartRanges *`) is an `Option`, `none` standing for `NULL`.
* The header is compiled in several ways: the preprocessor `#ifdef DEBUG_PRINTF`
  selects the checked code paths, and `assert` of `<cassert>` is compiled away
  under `NDEBUG`.  Both switches are fields of `BuildConfig`.
* A call either returns, or ends in one of three ways that `Outcome` names.
-/

namespace Vite

/-- Compile-time switches that the header reads. -/
structure BuildConfig where
  /-- The preprocessor symbol `DEBUG_PRINTF` is defined. -/
  DEBUG_PRINTF : Bool
  /-- The preprocessor symbol `NDEBUG` is defined (then `assert` expands to nothing). -/
  NDEBUG : Bool
deriving DecidableEq, Repr

/-- The `assert` lines of the header, each inside `#ifdef DEBUG_PRINTF`, are
compiled and active. -/
def BuildConfig.assertsOn (cfg : BuildConfig) : Bool :=
  cfg.DEBUG_PRINTF && !cfg.NDEBUG

/-- How a call of a member function ends. -/
inductive Outcome (α : Type) where
  /-- The call returns a value. -/
  | returns (a : α)
  /-- An `assert` fails: the process aborts. -/
  | assertFails
  /-- The call `std::vector::at` throws `std::out_of_range`. -/
  | throwsOutOfRange
  /-- The call has undefined behaviour in C++ (null dereference, unchecked
  out-of-range `operator[]`). -/
  | undefined
deriving DecidableEq, Repr

/-- Modelled from the spec: the class `Graph` of `graph.hpp`, the local
subgraph, "constructed with a known local vertex count and local edge count";
only the two constructor arguments of `Graph(lnv, lne)` are recorded. -/
structure Graph where
  lnv : Int
  lne : Int
deriving DecidableEq, Repr

/-- The vector type `PartRanges` (`std::vector<GraphElem>`). -/
abbrev PartRanges := List Int

/-- The data members of `class DistGraph`. -/
structure DistGraph where
  totalNumVertices : Int
  totalNumEdges : Int
  /-- The pointer `Graph *localGraph`; `none` is `NULL`. -/
  localGraph : Option Graph
  /-- The pointer `PartRanges *parts`; `none` is `NULL`. -/
  parts : Option PartRanges
deriving DecidableEq, Repr

/-- The loop of `std::upper_bound` (the library's binary search):
`first` and `len` are the loop variables, `fuel` bounds the number of
iterations that remain (the caller passes the initial `len`, which is enough
since `len` strictly decreases).
```
while (len > 0) {
  half = len >> 1;  middle = first + half;
  if (val < *middle) len = half;
  else { first = middle + 1; len = len - half - 1; }
}
return first;
``` -/
def upper_bound_loop (xs : PartRanges) (val : Int) : Nat → Nat → Nat → Nat
  | 0, first, _ => first
  | fuel + 1, first, len =>
    if 0 < len then
      let half := len / 2
      let middle := first + half
      if val < xs.getD middle 0 then
        upper_bound_loop xs val fuel first half
      else
        upper_bound_loop xs val fuel (middle + 1) (len - half - 1)
    else first

/-- The call `std::upper_bound(xs.begin(), xs.end(), val)`, as the index of the
iterator it returns (`xs.length` for `xs.end()`). -/
def upper_bound (xs : PartRanges) (val : Int) : Nat :=
  upper_bound_loop xs val xs.length 0 xs.length

namespace DistGraph

/-- The constructor `DistGraph::DistGraph(const GraphElem tnv, const GraphElem tne)`. -/
def construct (tnv tne : Int) : DistGraph :=
  { totalNumVertices := tnv, totalNumEdges := tne, localGraph := none, parts := none }

/-- The member `DistGraph::getTotalNumVertices`. -/
def getTotalNumVertices (g : DistGraph) : Int := g.totalNumVertices

/-- The member `DistGraph::getTotalNumEdges`. -/
def getTotalNumEdges (g : DistGraph) : Int := g.totalNumEdges

/-- The member `DistGraph::setNumEdges`. -/
def setNumEdges (g : DistGraph) (numEdges : Int) : DistGraph :=
  { g with totalNumEdges := numEdges }

/-- The member `DistGraph::createLocalGraph(lnv, lne, oparts)`.
The `assert(!localGraph)` is checked only when asserts are compiled in; then
`localGraph = new Graph(lnv, lne)` and `parts = new PartRanges(*oparts)`,
the latter dereferencing `oparts` (undefined when it is `NULL`). -/
def createLocalGraph (cfg : BuildConfig) (g : DistGraph) (lnv lne : Int)
    (oparts : Option PartRanges) : Outcome DistGraph :=
  if cfg.assertsOn && g.localGraph.isSome then .assertFails
  else
    match oparts with
    | none => .undefined
    | some t => .returns { g with localGraph := some ⟨lnv, lne⟩, parts := some t }

/-- Element access on the table through the pointer `parts`, at the `int`
index `i` converted to `size_type`: `parts->at(i)` under `DEBUG_PRINTF`
(throws when out of range), `parts->operator[](i)` otherwise (undefined
when out of range).  A negative `int` converts to a huge unsigned index,
which is out of range. -/
def partsAt (cfg : BuildConfig) (g : DistGraph) (i : Int) : Outcome Int :=
  match g.parts with
  | none => .undefined
  | some b =>
    if 0 ≤ i ∧ i < (b.length : Int) then .returns (b.getD i.toNat 0)
    else if cfg.DEBUG_PRINTF then .throwsOutOfRange
    else .undefined

/-- The member `DistGraph::getBase(me)`. -/
def getBase (cfg : BuildConfig) (g : DistGraph) (me : Int) : Outcome Int :=
  partsAt cfg g me

/-- The member `DistGraph::getBound(me)`. -/
def getBound (cfg : BuildConfig) (g : DistGraph) (me : Int) : Outcome Int :=
  partsAt cfg g (me + 1)

/-- The member `DistGraph::getOwner(v)`.  The value returned is the iterator
difference `iter - parts->begin() - 1`; the return type `int` holds it
unchanged, a table having one entry more than there are ranks and ranks
being `int`s. -/
def getOwner (cfg : BuildConfig) (g : DistGraph) (v : Int) : Outcome Int :=
  if cfg.assertsOn && !(decide (0 ≤ v) && decide (v < g.totalNumVertices)) then .assertFails
  else
    match g.parts with
    | none => .undefined
    | some b =>
      let iter := upper_bound b v
      if cfg.assertsOn && iter == b.length then .assertFails
      else .returns ((iter : Int) - 1)

end DistGraph

/-- The partition-table invariant of the specification for a table `b` of
`P + 1` entries: `b[0] = 0`, `b[P] = tnv`, and `b[i] ≤ b[i+1]` for all `i`. -/
def ValidTable (b : PartRanges) (P : Nat) (tnv : Int) : Prop :=
  b.length = P + 1 ∧ b.getD 0 0 = 0 ∧ b.getD P 0 = tnv ∧
    ∀ i, i < P → b.getD i 0 ≤ b.getD (i + 1) 0

/-- The table is non-decreasing from each entry to the next. -/
def NonDecreasing (b : PartRanges) : Prop :=
  ∀ i, i + 1 < b.length → b.getD i 0 ≤ b.getD (i + 1) 0

/-- The partition-table invariant as a property of a `DistGraph` state: it
holds a table, and the table is valid for the state's `totalNumVertices`. -/
def TableInvariant (g : DistGraph) : Prop :=
  ∃ b P, g.parts = some b ∧ ValidTable b P g.totalNumVertices

/-- A call of one of the public members that the claims range over. -/
inductive Op where
  | createLocalGraph (lnv lne : Int) (oparts : Option PartRanges)
  | setNumEdges (numEdges : Int)
  | getOwner (v : Int)
  | getBase (me : Int)
  | getBound (me : Int)
deriving DecidableEq, Repr

/-- A `const` member that only answers a query: when it returns, the object is
as before; otherwise the call ends the way the query ended. -/
def Outcome.keeping {α : Type} (o : Outcome α) (g : DistGraph) : Outcome DistGraph :=
  match o with
  | .returns _ => .returns g
  | .assertFails => .assertFails
  | .throwsOutOfRange => .throwsOutOfRange
  | .undefined => .undefined

/-- The effect of one call on the object. -/
def step (cfg : BuildConfig) (g : DistGraph) : Op → Outcome DistGraph
  | .createLocalGraph lnv lne oparts => g.createLocalGraph cfg lnv lne oparts
  | .setNumEdges numEdges => .returns (g.setNumEdges numEdges)
  | .getOwner v => (g.getOwner cfg v).keeping g
  | .getBase me => (g.getBase cfg me).keeping g
  | .getBound me => (g.getBound cfg me).keeping g

/-- Runs a sequence of calls on the object.  The result is the state of the
object when the sequence stops, and how it stopped: `returns ()` when every
call returned, otherwise the way the first call that did not return ended
(the state is then the one that call was made on). -/
def exec (cfg : BuildConfig) : DistGraph → List Op → DistGraph × Outcome Unit
  | g, [] => (g, .returns ())
  | g, op :: ops =>
    match step cfg g op with
    | .returns g' => exec cfg g' ops
    | .assertFails => (g, .assertFails)
    | .throwsOutOfRange => (g, .throwsOutOfRange)
    | .undefined => (g, .undefined)

/-- Sequencing of two calls: the second runs on the value the first returns;
a call that does not return ends the whole computation the same way. -/
def Outcome.bind {α β : Type} (o : Outcome α) (f : α → Outcome β) : Outcome β :=
  match o with
  | .returns a => f a
  | .assertFails => .assertFails
  | .throwsOutOfRange => .throwsOutOfRange
  | .undefined => .undefined

/-- The size of the range of rank `r`, the expression `getBound(r) - getBase(r)`. -/
def rangeSize (cfg : BuildConfig) (g : DistGraph) (r : Int) : Outcome Int :=
  (g.getBound cfg r).bind fun hi => (g.getBase cfg r).bind fun lo => .returns (hi - lo)

/-- The sum of `getBound(r) - getBase(r)` over the ranks `r = 0, ..., P - 1`,
accumulated in increasing order of `r`. -/
def sumRangeSizes (cfg : BuildConfig) (g : DistGraph) : Nat → Outcome Int
  | 0 => .returns 0
  | P + 1 =>
    (sumRangeSizes cfg g P).bind fun acc =>
      (rangeSize cfg g (P : Int)).bind fun d => .returns (acc + d)

/-- The linear reference for `getOwner`, in the words of the specification:
the number of entries of the table that are `≤ v`, minus one. -/
def getOwner_linear_reference (b : PartRanges) (v : Int) : Int :=
  (b.countP (fun x => decide (x ≤ v)) : Int) - 1

/-- The copy constructor `DistGraph::DistGraph(const DistGraph &othis)`:
the two counts are copied, `localGraph` is `new Graph(*othis.localGraph)` and
`parts` is `new PartRanges(*othis.parts)`.  Both pointers of `othis` are
dereferenced without a check in every build (undefined when `NULL`); the
copies are new objects with the same contents. -/
def DistGraph.copy (othis : DistGraph) : Outcome DistGraph :=
  match othis.localGraph with
  | none => .undefined
  | some lg =>
    match othis.parts with
    | none => .undefined
    | some b =>
      .returns { totalNumVertices := othis.totalNumVertices,
                 totalNumEdges := othis.totalNumEdges,
                 localGraph := some lg, parts := some b }

/-- The two members `DistGraph::getLocalGraph` (const and non-const), as the
graph that `*localGraph` reads: `assert(localGraph)` when the asserts are
compiled in, then the dereference (undefined when `NULL`). -/
def DistGraph.getLocalGraph (cfg : BuildConfig) (g : DistGraph) : Outcome Graph :=
  if cfg.assertsOn && g.localGraph.isNone then .assertFails
  else
    match g.localGraph with
    | none => .undefined
    | some lg => .returns lg

/-- The members of a `DistGraph` object as they are stored: the two counts by
value, `localGraph` and `parts` as addresses of heap cells (`none` is `NULL`). -/
structure DistGraphRep where
  totalNumVertices : Int
  totalNumEdges : Int
  localGraph : Option Nat
  parts : Option Nat
deriving DecidableEq, Repr

/-- A memory in which several `DistGraph` objects live.  `graphs` and `tables`
are the cells allocated by `new Graph(...)` and `new PartRanges(...)`, and
`objects` the `DistGraph` objects; an address is a position in its list, and
an allocation appends a cell. -/
structure Memory where
  graphs : List Graph
  tables : List PartRanges
  objects : List DistGraphRep
deriving DecidableEq, Repr

/-- What a pointer member reads: `some none` for `NULL`, `some (some x)` for
the cell it points to, `none` when it points to no allocated cell. -/
def Memory.deref {α : Type} (cells : List α) : Option Nat → Option (Option α)
  | none => some none
  | some p => (cells[p]?).map some

/-- The state of the object at address `this`, its pointers followed; `none`
when there is no such object or one of its pointers is dangling. -/
def Memory.read (m : Memory) (this : Nat) : Option DistGraph :=
  match m.objects[this]? with
  | none => none
  | some o =>
    match Memory.deref m.graphs o.localGraph, Memory.deref m.tables o.parts with
    | some lg, some b => some ⟨o.totalNumVertices, o.totalNumEdges, lg, b⟩
    | _, _ => none

/-- The copy constructor `DistGraph::DistGraph(const DistGraph &othis)` in
memory, for the declaration `DistGraph c(othis);`.  The result is the memory
afterwards and the address of the new object `c`.
```
: totalNumVertices(othis.totalNumVertices), totalNumEdges(othis.totalNumEdges),
  localGraph(new Graph(*othis.localGraph)), parts(NULL)
{ parts = new PartRanges(*othis.parts); }
``` -/
def Memory.copyConstruct (m : Memory) (othis : Nat) : Outcome (Memory × Nat) :=
  match m.objects[othis]? with
  | none => .undefined
  | some o =>
    match o.localGraph.bind fun p => m.graphs[p]? with
    | none => .undefined
    | some lg =>
      match o.parts.bind fun p => m.tables[p]? with
      | none => .undefined
      | some b =>
        .returns
          ({ graphs := m.graphs ++ [lg],
             tables := m.tables ++ [b],
             objects := m.objects ++
               [{ totalNumVertices := o.totalNumVertices,
                  totalNumEdges := o.totalNumEdges,
                  localGraph := some m.graphs.length,
                  parts := some m.tables.length }] },
            m.objects.length)

/-- The member `DistGraph::setNumEdges` called on the object at address `this`:
`this->totalNumEdges = numEdges`. -/
def Memory.setNumEdges (m : Memory) (this : Nat) (numEdges : Int) : Memory :=
  match m.objects[this]? with
  | none => m
  | some o =>
    { m with objects := m.objects.set this { o with totalNumEdges := numEdges } }

/-- The call is a call of `createLocalGraph`. -/
def Op.isCreateLocalGraph : Op → Bool
  | .createLocalGraph _ _ _ => true
  | _ => false

/-- Modelled from the spec: the scan of `balanceEdges`, which is declared in
`distgraph.hpp` and defined outside it (section 4.2, greedy prefix-sum
partitioning).  The vertices are scanned in increasing id order; `v` is the id
of the next vertex, `p` the rank whose range is open and `acc` the running
edge-count sum of that range.  The result lists the boundaries still to come,
`b[p+1], ..., b[P]`.
* The last rank absorbs every remaining vertex.
* "Whenever the running sum reaches or exceeds the target share
  `totalNumEdges / P`", tested on the exact quotient as `E ≤ (acc + d) * P`
  (the scenario of section 8 has target 9.7 for `E = 29`, `P = 3`), the range
  is closed at that vertex, which stays in the current rank, and the next
  range starts at the following vertex.
* "The boundary is forced to guarantee every process owns at least one
  vertex": the range is also closed at a vertex when the vertices after it
  are fewer than the ranks from `p` on, that is when taking one more would
  leave a later rank without a vertex.
* When the vertices run out, the open rank and all later ranks end at the
  number of vertices. -/
def balanceScan (E P : Nat) : List Nat → Nat → Nat → Nat → List Nat
  | [], v, p, _ => List.replicate (P - p) v
  | d :: ds, v, p, acc =>
    if P ≤ p + 1 then balanceScan E P ds (v + 1) p (acc + d)
    else if E ≤ (acc + d) * P ∨ ds.length < P - p then
      (v + 1) :: balanceScan E P ds (v + 1) (p + 1) 0
    else balanceScan E P ds (v + 1) p (acc + d)

/-- Modelled from the spec: `balanceEdges(nprocs, fileName, mbins)`, declared
in `distgraph.hpp` and defined outside it.  `degrees` is the per-vertex
edge-count profile read from the file, the result is the table `mbins`: the
boundary 0 followed by the boundaries the scan produces, the target share
being computed from the total of the profile. -/
def balanceEdges (nprocs : Nat) (degrees : List Nat) : List Nat :=
  0 :: balanceScan degrees.sum nprocs degrees 0 0 0

/-- The per-process edge counts of a table over a degree profile: for each
pair of consecutive boundaries `lo`, `hi`, the sum of the degrees of the
vertices in `[lo, hi)`. -/
def edgeCounts (degrees : List Nat) : List Nat → List Nat
  | lo :: hi :: rest =>
    ((degrees.drop lo).take (hi - lo)).sum :: edgeCounts degrees (hi :: rest)
  | _ => []

/-- The maximum single-vertex degree of a profile (0 for the empty profile). -/
def maxDegree (degrees : List Nat) : Nat := degrees.foldr max 0

/-- The number of edges of the vertices `0, ..., k - 1`. -/
def edgesBefore (degrees : List Nat) (k : Nat) : Nat := (degrees.take k).sum

/-- The boundaries `l` continue a table from the boundary `lo` up to the
number of vertices, each range holding at most `B` edges. -/
def BalancedFrom (degrees : List Nat) (B : Nat) : Nat → List Nat → Prop
  | lo, [] => lo = degrees.length
  | lo, hi :: rest =>
    lo ≤ hi ∧ edgesBefore degrees hi ≤ edgesBefore degrees lo + B ∧
      BalancedFrom degrees B hi rest

/-! ## Binary search over a non-decreasing table -/

theorem NonDecreasing.le_of_le {b : PartRanges} (hb : NonDecreasing b) {i j : Nat}
    (hij : i ≤ j) (hj : j < b.length) : b.getD i 0 ≤ b.getD j 0 := by
  induction j with
  | zero =>
    have : i = 0 := by omega
    subst this
    exact le_refl _
  | succ k ih =>
    rcases Nat.eq_or_lt_of_le hij with h | h
    · subst h
      exact le_refl _
    · exact le_trans (ih (by omega) (by omega)) (hb k hj)

theorem ValidTable.nonDecreasing {b : PartRanges} {P : Nat} {tnv : Int}
    (h : ValidTable b P tnv) : NonDecreasing b := by
  intro i hi
  exact h.2.2.2 i (by have := h.1; omega)

/-- The loop of the binary search keeps its invariant: everything left of
`first` is `≤ val`, everything from `first + len` on is `> val`; with
`len ≤ fuel` it runs until `len = 0`, where the two regions meet. -/
theorem upper_bound_loop_spec {b : PartRanges} (hb : NonDecreasing b) (val : Int) :
    ∀ (fuel first len : Nat), len ≤ fuel → first + len ≤ b.length →
      (∀ j, j < first → b.getD j 0 ≤ val) →
      (∀ j, first + len ≤ j → j < b.length → val < b.getD j 0) →
      upper_bound_loop b val fuel first len ≤ b.length ∧
      (∀ j, j < upper_bound_loop b val fuel first len → b.getD j 0 ≤ val) ∧
      (∀ j, upper_bound_loop b val fuel first len ≤ j → j < b.length → val < b.getD j 0) := by
  intro fuel
  induction fuel with
  | zero =>
    intro first len hlen hbound hlo hhi
    have hz : len = 0 := by omega
    subst hz
    simp only [upper_bound_loop]
    exact ⟨by omega, hlo, fun j hj hjl => hhi j (by omega) hjl⟩
  | succ n ih =>
    intro first len hlen hbound hlo hhi
    simp only [upper_bound_loop]
    by_cases hpos : 0 < len
    · simp only [hpos, if_true]
      by_cases hcmp : val < b.getD (first + len / 2) 0
      · simp only [hcmp, if_true]
        apply ih first (len / 2) (by omega) (by omega) hlo
        intro j hj hjl
        exact lt_of_lt_of_le hcmp (hb.le_of_le hj hjl)
      · simp only [hcmp, if_false]
        apply ih (first + len / 2 + 1) (len - len / 2 - 1) (by omega) (by omega)
        · intro j hj
          have hmid : first + len / 2 < b.length := by omega
          exact le_trans (hb.le_of_le (by omega : j ≤ first + len / 2) hmid) (not_lt.mp hcmp)
        · intro j hj hjl
          exact hhi j (by omega) hjl
    · have hz : len = 0 := by omega
      subst hz
      simp only [lt_irrefl, if_false]
      exact ⟨by omega, hlo, fun j hj hjl => hhi j (by omega) hjl⟩

/-- On a non-decreasing table `upper_bound` returns the index that splits it
into the entries `≤ val` and the entries `> val`. -/
theorem upper_bound_spec {b : PartRanges} (hb : NonDecreasing b) (val : Int) :
    upper_bound b val ≤ b.length ∧
    (∀ j, j < upper_bound b val → b.getD j 0 ≤ val) ∧
    (∀ j, upper_bound b val ≤ j → j < b.length → val < b.getD j 0) := by
  unfold upper_bound
  apply upper_bound_loop_spec hb val b.length 0 b.length (le_refl _) (by omega)
  · intro j hj
    omega
  · intro j hj hjl
    omega

/-! ## Ownership queries -/

/-- The table `[0, 4, 7, 10]` is a valid partition of 10 vertices over 3 ranks. -/
theorem validTable_0_4_7_10 : ValidTable [0, 4, 7, 10] 3 10 := by
  refine ⟨rfl, rfl, rfl, ?_⟩
  intro i hi
  interval_cases i <;> decide

/-- The table `[0, 4, 4, 10]`, whose middle range is empty, is a valid
partition of 10 vertices over 3 ranks. -/
theorem validTable_0_4_4_10 : ValidTable [0, 4, 4, 10] 3 10 := by
  refine ⟨rfl, rfl, rfl, ?_⟩
  intro i hi
  interval_cases i <;> decide

/-- C1: on a state holding a valid partition table `b[0..P]` for its
`totalNumVertices`, for every vertex id `v` with `0 ≤ v < totalNumVertices`,
in every build, `getOwner v` returns a rank `p` with `p < P` and
`b[p] ≤ v < b[p+1]`, and `p` is the only rank with that property (empty ranges
included, since the table is only required to be non-decreasing). -/
theorem getOwner_unique_owner (cfg : BuildConfig) (g : DistGraph) (b : PartRanges)
    (P : Nat) (v : Int) (hparts : g.parts = some b)
    (hvalid : ValidTable b P g.totalNumVertices)
    (hv0 : 0 ≤ v) (hv1 : v < g.totalNumVertices) :
    ∃ p : Nat, g.getOwner cfg v = .returns (p : Int) ∧ p < P ∧
      b.getD p 0 ≤ v ∧ v < b.getD (p + 1) 0 ∧
      ∀ q : Nat, q < P → b.getD q 0 ≤ v → v < b.getD (q + 1) 0 → q = p := by
  obtain ⟨hlen, h0, hP, _⟩ := hvalid
  obtain ⟨hle, hlo, hhi⟩ := upper_bound_spec (ValidTable.nonDecreasing ⟨hlen, h0, hP, ‹_›⟩) v
  have hpos : 0 < upper_bound b v := by
    by_contra hcon
    have := hhi 0 (by omega) (by omega)
    omega
  have hltP : upper_bound b v ≤ P := by
    by_contra hcon
    have := hlo P (by omega)
    omega
  refine ⟨upper_bound b v - 1, ?_, by omega, hlo _ (by omega), ?_, ?_⟩
  · have hne : (upper_bound b v == b.length) = false := by
      rw [beq_eq_false_iff_ne]
      omega
    have hcast : ((upper_bound b v - 1 : Nat) : Int) = (upper_bound b v : Int) - 1 := by
      omega
    simp [DistGraph.getOwner, hparts, hv0, hv1, hne, hcast]
  · have := hhi (upper_bound b v) (le_refl _) (by omega)
    have heq : upper_bound b v - 1 + 1 = upper_bound b v := by omega
    rw [heq]
    exact this
  · intro q hq hq0 hq1
    by_contra hne
    rcases Nat.lt_or_gt_of_ne hne with h | h
    · have := hlo (q + 1) (by omega)
      omega
    · have := hhi q (by omega) (by omega)
      omega

/-- Witness of C1: vertex 4 of the table `[0, 4, 4, 10]` (rank 1 is empty). -/
theorem getOwner_unique_owner_witness :
    ∃ p : Nat, DistGraph.getOwner ⟨true, false⟩ ⟨10, 0, none, some [0, 4, 4, 10]⟩ 4
        = .returns (p : Int) ∧ p < 3 ∧
      List.getD [0, 4, 4, 10] p (0 : Int) ≤ 4 ∧ (4 : Int) < List.getD [0, 4, 4, 10] (p + 1) 0 ∧
      ∀ q : Nat, q < 3 → List.getD [0, 4, 4, 10] q (0 : Int) ≤ 4 →
        (4 : Int) < List.getD [0, 4, 4, 10] (q + 1) 0 → q = p :=
  getOwner_unique_owner ⟨true, false⟩ ⟨10, 0, none, some [0, 4, 4, 10]⟩ [0, 4, 4, 10] 3 4
    rfl validTable_0_4_4_10 (by decide) (by decide)

/-- C2, refuted as stated: in a build without `DEBUG_PRINTF` the valid table
`[0, 4, 7, 10]` of 10 vertices makes `getOwner 10` return the integer 3 and
`getOwner (-1)` return the integer -1; neither call fails. -/
theorem getOwner_out_of_range_returns :
    ValidTable [0, 4, 7, 10] 3 10 ∧
    DistGraph.getOwner ⟨false, false⟩ ⟨10, 29, some ⟨4, 4⟩, some [0, 4, 7, 10]⟩ 10
      = .returns 3 ∧
    DistGraph.getOwner ⟨false, false⟩ ⟨10, 29, some ⟨4, 4⟩, some [0, 4, 7, 10]⟩ (-1)
      = .returns (-1) :=
  ⟨validTable_0_4_7_10, by decide, by decide⟩

/-- C2, amended: on a state holding a valid table `b[0..P]`, for `v < 0` or
`v ≥ totalNumVertices`: when the asserts are compiled in, `getOwner v` fails
its assertion; otherwise it returns an integer that is no rank, namely `-1`
for `v < 0` and `P` for `v ≥ totalNumVertices`. -/
theorem getOwner_out_of_range (cfg : BuildConfig) (g : DistGraph) (b : PartRanges)
    (P : Nat) (v : Int) (hparts : g.parts = some b)
    (hvalid : ValidTable b P g.totalNumVertices)
    (hv : v < 0 ∨ g.totalNumVertices ≤ v) :
    (cfg.assertsOn = true → g.getOwner cfg v = .assertFails) ∧
    (cfg.assertsOn = false →
      (v < 0 → g.getOwner cfg v = .returns (-1)) ∧
      (g.totalNumVertices ≤ v → g.getOwner cfg v = .returns (P : Int))) := by
  obtain ⟨hle, hlo, hhi⟩ := upper_bound_spec hvalid.nonDecreasing v
  obtain ⟨hlen, h0, hP, _⟩ := hvalid
  refine ⟨?_, ?_⟩
  · intro hon
    have hfail : (decide (0 ≤ v) && decide (v < g.totalNumVertices)) = false := by
      rcases hv with h | h
      · simp [not_le.mpr h]
      · simp [not_lt.mpr h]
    simp [DistGraph.getOwner, hon, hfail]
  · intro hoff
    refine ⟨?_, ?_⟩
    · intro hneg
      have hidx : upper_bound b v = 0 := by
        by_contra hcon
        have := hlo 0 (by omega)
        omega
      simp [DistGraph.getOwner, hoff, hparts, hidx]
    · intro hge
      have hidx : upper_bound b v = P + 1 := by
        by_contra hcon
        have := hhi P (by omega) (by omega)
        omega
      simp [DistGraph.getOwner, hoff, hparts, hidx]

/-- Witness of the amended C2: the table `[0, 4, 7, 10]` and `v = 10`, in a
build with the asserts compiled in. -/
theorem getOwner_out_of_range_witness :
    ((BuildConfig.mk true false).assertsOn = true →
      DistGraph.getOwner ⟨true, false⟩ ⟨10, 29, none, some [0, 4, 7, 10]⟩ 10 = .assertFails) ∧
    ((BuildConfig.mk true false).assertsOn = false →
      ((10 : Int) < 0 →
        DistGraph.getOwner ⟨true, false⟩ ⟨10, 29, none, some [0, 4, 7, 10]⟩ 10
          = .returns (-1)) ∧
      ((10 : Int) ≤ 10 →
        DistGraph.getOwner ⟨true, false⟩ ⟨10, 29, none, some [0, 4, 7, 10]⟩ 10
          = .returns ((3 : Nat) : Int))) :=
  getOwner_out_of_range ⟨true, false⟩ ⟨10, 29, none, some [0, 4, 7, 10]⟩ [0, 4, 7, 10] 3 10
    rfl validTable_0_4_7_10 (Or.inr (by decide))

/-- Reading the table at an index inside it returns that entry, in every build. -/
theorem partsAt_in_range (cfg : BuildConfig) (g : DistGraph) (b : PartRanges) (i : Nat)
    (hparts : g.parts = some b) (hi : i < b.length) :
    g.partsAt cfg (i : Int) = .returns (b.getD i 0) := by
  have h1 : (i : Int) < (b.length : Int) := by omega
  simp [DistGraph.partsAt, hparts, h1]

/-- C3: on a state holding a table `b[0..P]`, for every rank `r < P` and in
every build, `getBase r` returns `b[r]` and `getBound r` returns `b[r+1]`;
and when `r + 1 < P`, `getBound r` is `getBase (r + 1)`. -/
theorem getBase_getBound_table (cfg : BuildConfig) (g : DistGraph) (b : PartRanges)
    (P r : Nat) (hparts : g.parts = some b) (hlen : b.length = P + 1) (hr : r < P) :
    g.getBase cfg (r : Int) = .returns (b.getD r 0) ∧
    g.getBound cfg (r : Int) = .returns (b.getD (r + 1) 0) ∧
    (r + 1 < P → g.getBound cfg (r : Int) = g.getBase cfg ((r + 1 : Nat) : Int)) := by
  have h1 : (r : Int) < (b.length : Int) := by omega
  have h2 : (r : Int) + 1 < (b.length : Int) := by omega
  have h3 : 0 ≤ (r : Int) + 1 := by omega
  have h4 : ((r : Int) + 1).toNat = r + 1 := by omega
  refine ⟨?_, ?_, ?_⟩
  · simp [DistGraph.getBase, DistGraph.partsAt, hparts, h1]
  · simp [DistGraph.getBound, DistGraph.partsAt, hparts, h2, h3, h4]
  · intro _
    simp [DistGraph.getBase, DistGraph.getBound, Nat.cast_add]

/-- Witness of C3: rank 1 of the table `[0, 4, 7, 10]`. -/
theorem getBase_getBound_table_witness :
    DistGraph.getBase ⟨false, false⟩ ⟨10, 29, none, some [0, 4, 7, 10]⟩ ((1 : Nat) : Int)
      = .returns (List.getD [0, 4, 7, 10] 1 0) ∧
    DistGraph.getBound ⟨false, false⟩ ⟨10, 29, none, some [0, 4, 7, 10]⟩ ((1 : Nat) : Int)
      = .returns (List.getD [0, 4, 7, 10] (1 + 1) 0) ∧
    (1 + 1 < 3 →
      DistGraph.getBound ⟨false, false⟩ ⟨10, 29, none, some [0, 4, 7, 10]⟩ ((1 : Nat) : Int)
        = DistGraph.getBase ⟨false, false⟩ ⟨10, 29, none, some [0, 4, 7, 10]⟩
            ((1 + 1 : Nat) : Int)) :=
  getBase_getBound_table ⟨false, false⟩ ⟨10, 29, none, some [0, 4, 7, 10]⟩ [0, 4, 7, 10] 3 1
    rfl rfl (by decide)

/-! ## Construction and allocation of the local graph -/

/-- C4: in every build, `createLocalGraph lnv lne table` on a freshly
constructed `DistGraph` returns; the new state holds exactly `table` and a
local graph, `getTotalNumVertices` and `getTotalNumEdges` are as before the
call, `getBase r` and `getBound r` are `table[r]` and `table[r+1]` for every
rank `r` of the table, and `getOwner` answers as on a state holding `table`. -/
theorem createLocalGraph_fresh (cfg : BuildConfig) (tnv tne lnv lne : Int)
    (table : PartRanges) :
    ∃ g : DistGraph,
      (DistGraph.construct tnv tne).createLocalGraph cfg lnv lne (some table) = .returns g ∧
      g.parts = some table ∧ g.localGraph = some ⟨lnv, lne⟩ ∧
      g.getTotalNumVertices = (DistGraph.construct tnv tne).getTotalNumVertices ∧
      g.getTotalNumEdges = (DistGraph.construct tnv tne).getTotalNumEdges ∧
      (∀ r : Nat, r + 1 < table.length →
        g.getBase cfg (r : Int) = .returns (table.getD r 0) ∧
        g.getBound cfg (r : Int) = .returns (table.getD (r + 1) 0)) ∧
      (∀ v : Int, g.getOwner cfg v = DistGraph.getOwner cfg ⟨tnv, tne, none, some table⟩ v) := by
  refine ⟨⟨tnv, tne, some ⟨lnv, lne⟩, some table⟩, ?_, rfl, rfl, rfl, rfl, ?_, ?_⟩
  · simp [DistGraph.createLocalGraph, DistGraph.construct]
  · intro r hr
    constructor
    · exact partsAt_in_range cfg ⟨tnv, tne, some ⟨lnv, lne⟩, some table⟩ table r rfl
        (by omega)
    · have h := partsAt_in_range cfg ⟨tnv, tne, some ⟨lnv, lne⟩, some table⟩ table (r + 1)
        rfl hr
      simpa [DistGraph.getBound, Nat.cast_add] using h
  · intro v
    rfl

/-- Witness of C4: the table `[0, 4, 7, 10]` given to a fresh graph of 10
vertices and 29 edges. -/
theorem createLocalGraph_fresh_witness :
    ∃ g : DistGraph,
      (DistGraph.construct 10 29).createLocalGraph ⟨true, false⟩ 4 4 (some [0, 4, 7, 10])
        = .returns g ∧
      g.parts = some [0, 4, 7, 10] ∧ g.localGraph = some ⟨4, 4⟩ ∧
      g.getTotalNumVertices = (DistGraph.construct 10 29).getTotalNumVertices ∧
      g.getTotalNumEdges = (DistGraph.construct 10 29).getTotalNumEdges ∧
      (∀ r : Nat, r + 1 < List.length ([0, 4, 7, 10] : PartRanges) →
        g.getBase ⟨true, false⟩ (r : Int) = .returns (List.getD [0, 4, 7, 10] r 0) ∧
        g.getBound ⟨true, false⟩ (r : Int) = .returns (List.getD [0, 4, 7, 10] (r + 1) 0)) ∧
      (∀ v : Int, g.getOwner ⟨true, false⟩ v
        = DistGraph.getOwner ⟨true, false⟩ ⟨10, 29, none, some [0, 4, 7, 10]⟩ v) :=
  createLocalGraph_fresh ⟨true, false⟩ 10 29 4 4 [0, 4, 7, 10]

/-- C5, refuted as stated: in a build without `DEBUG_PRINTF` a second
`createLocalGraph` on the same object returns, and the object then holds the
second local graph and the second table instead of the first ones. -/
theorem createLocalGraph_twice_replaces :
    (DistGraph.construct 10 29).createLocalGraph ⟨false, false⟩ 5 10 (some [0, 5, 10])
      = .returns ⟨10, 29, some ⟨5, 10⟩, some [0, 5, 10]⟩ ∧
    DistGraph.createLocalGraph ⟨false, false⟩ ⟨10, 29, some ⟨5, 10⟩, some [0, 5, 10]⟩ 3 4
        (some [0, 2, 10])
      = .returns ⟨10, 29, some ⟨3, 4⟩, some [0, 2, 10]⟩ := by
  constructor <;> decide

/-- C5, amended: on a state that already has a local graph, a further
`createLocalGraph lnv lne table` fails the assertion `!localGraph` when the
asserts are compiled in (nothing has been assigned when the process aborts),
and in the other builds returns with the local graph and the table replaced
by the new ones. -/
theorem createLocalGraph_again (cfg : BuildConfig) (g : DistGraph) (lnv lne : Int)
    (table : PartRanges) (hlocal : g.localGraph.isSome = true) :
    (cfg.assertsOn = true →
      g.createLocalGraph cfg lnv lne (some table) = .assertFails) ∧
    (cfg.assertsOn = false →
      g.createLocalGraph cfg lnv lne (some table)
        = .returns ⟨g.totalNumVertices, g.totalNumEdges, some ⟨lnv, lne⟩, some table⟩) := by
  constructor
  · intro hon
    simp [DistGraph.createLocalGraph, hon, hlocal]
  · intro hoff
    simp [DistGraph.createLocalGraph, hoff]

/-- Witness of the amended C5: a second allocation in a build with the
asserts compiled in. -/
theorem createLocalGraph_again_witness :
    ((BuildConfig.mk true false).assertsOn = true →
      DistGraph.createLocalGraph ⟨true, false⟩ ⟨10, 29, some ⟨5, 10⟩, some [0, 5, 10]⟩ 3 4
        (some [0, 2, 10]) = .assertFails) ∧
    ((BuildConfig.mk true false).assertsOn = false →
      DistGraph.createLocalGraph ⟨true, false⟩ ⟨10, 29, some ⟨5, 10⟩, some [0, 5, 10]⟩ 3 4
        (some [0, 2, 10]) = .returns ⟨10, 29, some ⟨3, 4⟩, some [0, 2, 10]⟩) :=
  createLocalGraph_again ⟨true, false⟩ ⟨10, 29, some ⟨5, 10⟩, some [0, 5, 10]⟩ 3 4
    [0, 2, 10] rfl

/-! ## Sequences of calls -/

theorem step_totalNumVertices {cfg : BuildConfig} {g g' : DistGraph} {op : Op}
    (h : step cfg g op = .returns g') : g'.totalNumVertices = g.totalNumVertices := by
  cases op with
  | createLocalGraph lnv lne oparts =>
    simp only [step, DistGraph.createLocalGraph] at h
    split at h
    · cases h
    · cases oparts with
      | none => cases h
      | some t =>
        simp only [Outcome.returns.injEq] at h
        subst h
        rfl
  | setNumEdges n =>
    simp only [step, Outcome.returns.injEq] at h
    subst h
    rfl
  | getOwner v =>
    simp only [step] at h
    cases hq : g.getOwner cfg v <;> rw [hq] at h <;> simp [Outcome.keeping] at h
    subst h
    rfl
  | getBase me =>
    simp only [step] at h
    cases hq : g.getBase cfg me <;> rw [hq] at h <;> simp [Outcome.keeping] at h
    subst h
    rfl
  | getBound me =>
    simp only [step] at h
    cases hq : g.getBound cfg me <;> rw [hq] at h <;> simp [Outcome.keeping] at h
    subst h
    rfl

theorem exec_totalNumVertices (cfg : BuildConfig) (ops : List Op) :
    ∀ g : DistGraph, (exec cfg g ops).1.totalNumVertices = g.totalNumVertices := by
  induction ops with
  | nil => intro g; rfl
  | cons op ops ih =>
    intro g
    simp only [exec]
    cases hs : step cfg g op with
    | returns g' =>
      simp only []
      rw [ih g', step_totalNumVertices hs]
    | assertFails => rfl
    | throwsOutOfRange => rfl
    | undefined => rfl

theorem exec_setNumEdges (cfg : BuildConfig) (ns : List Int) :
    ∀ g : DistGraph, exec cfg g (ns.map Op.setNumEdges)
      = (ns.foldl DistGraph.setNumEdges g, .returns ()) := by
  induction ns with
  | nil => intro g; rfl
  | cons n ns ih =>
    intro g
    simp only [List.map_cons, exec, step, List.foldl_cons]
    exact ih _

theorem foldl_setNumEdges_parts (ns : List Int) :
    ∀ g : DistGraph, (ns.foldl DistGraph.setNumEdges g).parts = g.parts ∧
      (ns.foldl DistGraph.setNumEdges g).totalNumVertices = g.totalNumVertices ∧
      (ns.foldl DistGraph.setNumEdges g).localGraph = g.localGraph := by
  induction ns with
  | nil => intro g; exact ⟨rfl, rfl, rfl⟩
  | cons n ns ih =>
    intro g
    simp only [List.foldl_cons]
    exact ih _

/-- C6, refuted as stated: `createLocalGraph` stores whatever table it is
given, also with the asserts compiled in.  After `construct 10 29`,
`createLocalGraph 2 0 [5, 3]` and `setNumEdges 29` every call has returned and
the held table `[5, 3]` has `b[0] ≠ 0`, `b[1] ≠ 10` and `b[0] > b[1]`. -/
theorem tableInvariant_not_enforced :
    exec ⟨true, false⟩ (DistGraph.construct 10 29)
        [Op.createLocalGraph 2 0 (some [5, 3]), Op.setNumEdges 29]
      = (⟨10, 29, some ⟨2, 0⟩, some [5, 3]⟩, .returns ()) ∧
    ¬ TableInvariant ⟨10, 29, some ⟨2, 0⟩, some [5, 3]⟩ := by
  refine ⟨by decide, ?_⟩
  rintro ⟨b, P, hb, hvalid⟩
  simp only [Option.some.injEq] at hb
  subst hb
  have h0 := hvalid.2.1
  simp at h0

/-- C6, amended: in every build, `construct tnv tne`, then
`createLocalGraph lnv lne table`, then any sequence of `setNumEdges` calls all
return, and the state reached holds exactly `table` with `totalNumVertices`
equal to `tnv`; so the partition-table invariant holds in that state if and
only if the table passed to `createLocalGraph` is valid for `tnv`. -/
theorem tableInvariant_iff_given_table_valid (cfg : BuildConfig) (tnv tne lnv lne : Int)
    (table : PartRanges) (ns : List Int) :
    (exec cfg (DistGraph.construct tnv tne)
      (Op.createLocalGraph lnv lne (some table) :: ns.map Op.setNumEdges)).2 = .returns () ∧
    (exec cfg (DistGraph.construct tnv tne)
      (Op.createLocalGraph lnv lne (some table) :: ns.map Op.setNumEdges)).1.parts
        = some table ∧
    (exec cfg (DistGraph.construct tnv tne)
      (Op.createLocalGraph lnv lne (some table) :: ns.map Op.setNumEdges)).1.getTotalNumVertices
        = tnv ∧
    (TableInvariant (exec cfg (DistGraph.construct tnv tne)
      (Op.createLocalGraph lnv lne (some table) :: ns.map Op.setNumEdges)).1
        ↔ ∃ P, ValidTable table P tnv) := by
  have hstep : step cfg (DistGraph.construct tnv tne) (Op.createLocalGraph lnv lne (some table))
      = .returns ⟨tnv, tne, some ⟨lnv, lne⟩, some table⟩ := by
    simp [step, DistGraph.createLocalGraph, DistGraph.construct]
  have hexec : exec cfg (DistGraph.construct tnv tne)
      (Op.createLocalGraph lnv lne (some table) :: ns.map Op.setNumEdges)
      = (ns.foldl DistGraph.setNumEdges ⟨tnv, tne, some ⟨lnv, lne⟩, some table⟩,
          .returns ()) := by
    simp only [exec, hstep]
    exact exec_setNumEdges cfg ns _
  obtain ⟨hp, hv, _⟩ := foldl_setNumEdges_parts ns ⟨tnv, tne, some ⟨lnv, lne⟩, some table⟩
  rw [hexec]
  refine ⟨rfl, hp, hv, ?_⟩
  constructor
  · rintro ⟨b, P, hb, hvalid⟩
    simp only [] at hb hvalid
    rw [hp] at hb
    rw [hv] at hvalid
    simp only [Option.some.injEq] at hb
    subst hb
    exact ⟨P, hvalid⟩
  · rintro ⟨P, hvalid⟩
    refine ⟨table, P, hp, ?_⟩
    simp only []
    rw [hv]
    exact hvalid

/-- Witness of the amended C6: the valid table `[0, 4, 7, 10]` is held, and
the invariant holds, after two corrections of the edge count. -/
theorem tableInvariant_iff_given_table_valid_witness :
    TableInvariant (exec ⟨true, false⟩ (DistGraph.construct 10 0)
      (Op.createLocalGraph 4 4 (some [0, 4, 7, 10]) :: [29, 30].map Op.setNumEdges)).1 :=
  (tableInvariant_iff_given_table_valid ⟨true, false⟩ 10 0 4 4 [0, 4, 7, 10] [29, 30]).2.2.2.mpr
    ⟨3, validTable_0_4_7_10⟩

/-! ## The global counts -/

/-- C7: for every state and every `n`, after `setNumEdges n` the call
`getTotalNumEdges` returns `n`; `totalNumVertices`, the table and the local
graph are unchanged, and so is every answer of `getOwner`, `getBase` and
`getBound`, in every build. -/
theorem setNumEdges_frame (cfg : BuildConfig) (g : DistGraph) (n v me : Int) :
    (g.setNumEdges n).getTotalNumEdges = n ∧
    (g.setNumEdges n).getTotalNumVertices = g.getTotalNumVertices ∧
    (g.setNumEdges n).parts = g.parts ∧
    (g.setNumEdges n).localGraph = g.localGraph ∧
    (g.setNumEdges n).getOwner cfg v = g.getOwner cfg v ∧
    (g.setNumEdges n).getBase cfg me = g.getBase cfg me ∧
    (g.setNumEdges n).getBound cfg me = g.getBound cfg me :=
  ⟨rfl, rfl, rfl, rfl, rfl, rfl, rfl⟩

/-- C8, refuted as stated: after `construct 10 0` and `setNumEdges 5`, a
further `setNumEdges 7` changes what `getTotalNumEdges` returns from 5 to 7. -/
theorem setNumEdges_not_one_shot :
    (7 : Int) ≠ 5 ∧
    ((DistGraph.construct 10 0).setNumEdges 5).getTotalNumEdges = 5 ∧
    (((DistGraph.construct 10 0).setNumEdges 5).setNumEdges 7).getTotalNumEdges = 7 ∧
    (((DistGraph.construct 10 0).setNumEdges 5).setNumEdges 7).getTotalNumEdges
      ≠ ((DistGraph.construct 10 0).setNumEdges 5).getTotalNumEdges := by
  refine ⟨by decide, rfl, rfl, by decide⟩

/-- C8, amended: `setNumEdges` overwrites the edge count at every call: after
`setNumEdges n1` a further `setNumEdges n2` makes `getTotalNumEdges` return
`n2`, whatever `n1` was. -/
theorem setNumEdges_overwrites (g : DistGraph) (n1 n2 : Int) :
    ((g.setNumEdges n1).setNumEdges n2).getTotalNumEdges = n2 :=
  rfl

/-- C9: for every sequence of calls of `createLocalGraph`, `setNumEdges`,
`getOwner`, `getBase` and `getBound` made on `construct tnv tne`, in every
build, the state the sequence ends in (after its last call, or at the first
call that does not return) has `getTotalNumVertices` equal to `tnv`. -/
theorem totalNumVertices_immutable (cfg : BuildConfig) (tnv tne : Int) (ops : List Op) :
    (exec cfg (DistGraph.construct tnv tne) ops).1.getTotalNumVertices = tnv :=
  exec_totalNumVertices cfg ops (DistGraph.construct tnv tne)

/-- C10: `construct tnv tne` reports `getTotalNumVertices = tnv` and
`getTotalNumEdges = tne`, and has neither a local graph nor a table. -/
theorem construct_reports (tnv tne : Int) :
    (DistGraph.construct tnv tne).getTotalNumVertices = tnv ∧
    (DistGraph.construct tnv tne).getTotalNumEdges = tne ∧
    (DistGraph.construct tnv tne).localGraph = none ∧
    (DistGraph.construct tnv tne).parts = none :=
  ⟨rfl, rfl, rfl, rfl⟩

/-! ## Range sizes -/

theorem rangeSize_in_table (cfg : BuildConfig) (g : DistGraph) (b : PartRanges) (r : Nat)
    (hparts : g.parts = some b) (hr : r + 1 < b.length) :
    rangeSize cfg g (r : Int) = .returns (b.getD (r + 1) 0 - b.getD r 0) := by
  have hlo := partsAt_in_range cfg g b r hparts (by omega)
  have hhi := partsAt_in_range cfg g b (r + 1) hparts hr
  rw [Nat.cast_add, Nat.cast_one] at hhi
  simp [rangeSize, DistGraph.getBound, DistGraph.getBase, hlo, hhi, Outcome.bind]

theorem sumRangeSizes_telescopes (cfg : BuildConfig) (g : DistGraph) (b : PartRanges)
    (hparts : g.parts = some b) :
    ∀ k : Nat, k < b.length →
      sumRangeSizes cfg g k = .returns (b.getD k 0 - b.getD 0 0) := by
  intro k
  induction k with
  | zero =>
    intro _
    simp [sumRangeSizes]
  | succ k ih =>
    intro hk
    simp only [sumRangeSizes, ih (by omega), rangeSize_in_table cfg g b k hparts hk,
      Outcome.bind]
    congr 1
    ring

/-- C12: on a state holding a valid partition table `b[0..P]` for its
`totalNumVertices`, in every build, every range size
`getBound(r) - getBase(r)` with `r < P` is returned and is `≥ 0`, and the sum
of the range sizes over `r = 0, ..., P - 1` is exactly `totalNumVertices`. -/
theorem rangeSizes_sum_totalNumVertices (cfg : BuildConfig) (g : DistGraph)
    (b : PartRanges) (P : Nat) (hparts : g.parts = some b)
    (hvalid : ValidTable b P g.totalNumVertices) :
    (∀ r : Nat, r < P → ∃ d : Int, rangeSize cfg g (r : Int) = .returns d ∧ 0 ≤ d) ∧
    sumRangeSizes cfg g P = .returns g.getTotalNumVertices := by
  obtain ⟨hlen, h0, hP, hmono⟩ := hvalid
  constructor
  · intro r hr
    refine ⟨_, rangeSize_in_table cfg g b r hparts (by omega), ?_⟩
    have := hmono r hr
    omega
  · rw [sumRangeSizes_telescopes cfg g b hparts P (by omega), h0, hP]
    simp [DistGraph.getTotalNumVertices]

/-- Witness of C12: the table `[0, 4, 4, 10]`, whose middle range is empty. -/
theorem rangeSizes_sum_totalNumVertices_witness :
    (∀ r : Nat, r < 3 → ∃ d : Int,
      rangeSize ⟨false, false⟩ ⟨10, 29, none, some [0, 4, 4, 10]⟩ (r : Int) = .returns d ∧
        0 ≤ d) ∧
    sumRangeSizes ⟨false, false⟩ ⟨10, 29, none, some [0, 4, 4, 10]⟩ 3
      = .returns (DistGraph.getTotalNumVertices ⟨10, 29, none, some [0, 4, 4, 10]⟩) :=
  rangeSizes_sum_totalNumVertices ⟨false, false⟩ ⟨10, 29, none, some [0, 4, 4, 10]⟩
    [0, 4, 4, 10] 3 rfl validTable_0_4_4_10

/-! ## Binary search against the linear reference -/

/-- A list split at `i` into entries `≤ v` and entries `> v` has exactly `i`
entries `≤ v`. -/
theorem countP_le_of_split (v : Int) :
    ∀ (l : List Int) (i : Nat), i ≤ l.length →
      (∀ j, j < i → l.getD j 0 ≤ v) →
      (∀ j, i ≤ j → j < l.length → v < l.getD j 0) →
      l.countP (fun x => decide (x ≤ v)) = i := by
  intro l
  induction l with
  | nil =>
    intro i hi _ _
    simp at hi
    simp [hi]
  | cons x xs ih =>
    intro i hi hlo hhi
    cases i with
    | zero =>
      have hx : v < x := by simpa using hhi 0 (le_refl _) (by simp)
      have htail := ih 0 (by omega) (fun j hj => by omega)
        (fun j _ hj => by simpa using hhi (j + 1) (by omega) (by simpa using hj))
      rw [List.countP_cons, htail]
      simp [not_le.mpr hx]
    | succ k =>
      have hx : x ≤ v := by simpa using hlo 0 (by omega)
      have htail := ih k (by simpa using hi)
        (fun j hj => by simpa using hlo (j + 1) (by omega))
        (fun j hj hjl => by simpa using hhi (j + 1) (by omega) (by simpa using hjl))
      rw [List.countP_cons, htail]
      simp [hx]

/-- On a non-decreasing table the binary search finds the number of entries
that are `≤ v`. -/
theorem upper_bound_eq_countP {b : PartRanges} (hb : NonDecreasing b) (v : Int) :
    upper_bound b v = b.countP (fun x => decide (x ≤ v)) := by
  obtain ⟨hle, hlo, hhi⟩ := upper_bound_spec hb v
  exact (countP_le_of_split v b _ hle hlo hhi).symm

/-- The binary search is monotone in the value searched for. -/
theorem upper_bound_mono {b : PartRanges} (hb : NonDecreasing b) {v w : Int} (hvw : v ≤ w) :
    upper_bound b v ≤ upper_bound b w := by
  obtain ⟨hlev, hlov, _⟩ := upper_bound_spec hb v
  obtain ⟨_, _, hhiw⟩ := upper_bound_spec hb w
  by_contra hcon
  have h1 := hlov (upper_bound b w) (by omega)
  have h2 := hhiw (upper_bound b w) (le_refl _) (by omega)
  omega

/-- What `getOwner` does on a state holding a table, with the asserts off:
it returns the index found by the binary search, minus one. -/
theorem getOwner_asserts_off (cfg : BuildConfig) (g : DistGraph) (b : PartRanges) (v : Int)
    (hparts : g.parts = some b) (hoff : cfg.assertsOn = false) :
    g.getOwner cfg v = .returns ((upper_bound b v : Int) - 1) := by
  simp [DistGraph.getOwner, hoff, hparts]

/-- What `getOwner` does on a state holding a table, with the asserts on. -/
theorem getOwner_asserts_on (cfg : BuildConfig) (g : DistGraph) (b : PartRanges) (v : Int)
    (hparts : g.parts = some b) (hon : cfg.assertsOn = true) :
    g.getOwner cfg v =
      if 0 ≤ v ∧ v < g.totalNumVertices ∧ upper_bound b v ≠ b.length then
        .returns ((upper_bound b v : Int) - 1)
      else .assertFails := by
  by_cases h0 : 0 ≤ v <;> by_cases h1 : v < g.totalNumVertices <;>
    by_cases h2 : upper_bound b v = b.length <;>
    simp [DistGraph.getOwner, hon, hparts, h0, h1, h2]

/-- A call of `getOwner` that returns, returns the index found by the binary
search minus one, in every build. -/
theorem getOwner_returns_upper_bound {cfg : BuildConfig} {g : DistGraph} {b : PartRanges}
    {v p : Int} (hparts : g.parts = some b) (h : g.getOwner cfg v = .returns p) :
    p = (upper_bound b v : Int) - 1 ∧
      (cfg.assertsOn = true →
        0 ≤ v ∧ v < g.totalNumVertices ∧ upper_bound b v ≠ b.length) := by
  cases hcfg : cfg.assertsOn with
  | false =>
    rw [getOwner_asserts_off cfg g b v hparts hcfg] at h
    simp only [Outcome.returns.injEq] at h
    exact ⟨h.symm, fun hc => by cases hc⟩
  | true =>
    rw [getOwner_asserts_on cfg g b v hparts hcfg] at h
    split at h
    · simp only [Outcome.returns.injEq] at h
      exact ⟨h.symm, fun _ => ‹_›⟩
    · cases h

/-- C14, refuted as stated: with the asserts compiled in, on the
non-decreasing table `[0, 4, 7, 10]` of 10 vertices the linear reference gives
`-1` for `v = -1` and `3` for `v = 10`, while `getOwner` fails its assertion
on both. -/
theorem getOwner_differs_from_linear_reference :
    NonDecreasing [0, 4, 7, 10] ∧
    getOwner_linear_reference [0, 4, 7, 10] (-1) = -1 ∧
    DistGraph.getOwner ⟨true, false⟩ ⟨10, 29, some ⟨4, 4⟩, some [0, 4, 7, 10]⟩ (-1)
      = .assertFails ∧
    getOwner_linear_reference [0, 4, 7, 10] 10 = 3 ∧
    DistGraph.getOwner ⟨true, false⟩ ⟨10, 29, some ⟨4, 4⟩, some [0, 4, 7, 10]⟩ 10
      = .assertFails :=
  ⟨validTable_0_4_7_10.nonDecreasing, by decide, by decide, by decide, by decide⟩

/-- C14, amended: on a state holding a non-decreasing table `b`, for every
integer `v`: when the asserts are not compiled in, `getOwner v` returns the
linear reference (the number of entries `≤ v`, minus one), in particular `-1`
when `v < b[0]` and `P` when `v ≥ b[P]`; when the asserts are compiled in, it
returns the linear reference if `0 ≤ v < totalNumVertices` and some entry of
the table is `> v`, and fails its assertion otherwise. -/
theorem getOwner_eq_linear_reference (cfg : BuildConfig) (g : DistGraph) (b : PartRanges)
    (v : Int) (hparts : g.parts = some b) (hb : NonDecreasing b) :
    (cfg.assertsOn = false →
      g.getOwner cfg v = .returns (getOwner_linear_reference b v) ∧
      ∀ P : Nat, b.length = P + 1 →
        (v < b.getD 0 0 → g.getOwner cfg v = .returns (-1)) ∧
        (b.getD P 0 ≤ v → g.getOwner cfg v = .returns (P : Int))) ∧
    (cfg.assertsOn = true →
      (0 ≤ v → v < g.totalNumVertices → getOwner_linear_reference b v + 1 < b.length →
        g.getOwner cfg v = .returns (getOwner_linear_reference b v)) ∧
      (v < 0 ∨ g.totalNumVertices ≤ v ∨ getOwner_linear_reference b v + 1 = b.length →
        g.getOwner cfg v = .assertFails)) := by
  have hcount := upper_bound_eq_countP hb v
  obtain ⟨hle, hlo, hhi⟩ := upper_bound_spec hb v
  have href : getOwner_linear_reference b v = (upper_bound b v : Int) - 1 := by
    simp [getOwner_linear_reference, hcount]
  constructor
  · intro hoff
    have hret := getOwner_asserts_off cfg g b v hparts hoff
    refine ⟨by rw [hret, href], ?_⟩
    intro P hlen
    constructor
    · intro hv
      have hidx : upper_bound b v = 0 := by
        by_contra hcon
        have := hlo 0 (by omega)
        omega
      rw [hret, hidx]
      rfl
    · intro hv
      have hidx : upper_bound b v = P + 1 := by
        by_contra hcon
        have := hhi P (by omega) (by omega)
        omega
      rw [hret, hidx]
      simp
  · intro hon
    have hret := getOwner_asserts_on cfg g b v hparts hon
    constructor
    · intro h0 h1 h2
      rw [hret, href, if_pos ⟨h0, h1, by omega⟩]
    · intro h
      rw [hret, if_neg]
      rintro ⟨h0, h1, h2⟩
      rcases h with h | h | h
      · omega
      · omega
      · apply h2
        omega

/-- Witness of the amended C14: the table `[0, 4, 7, 10]` and `v = 12`, past
the last boundary, in a build without the asserts. -/
theorem getOwner_eq_linear_reference_witness :
    DistGraph.getOwner ⟨false, false⟩ ⟨10, 29, none, some [0, 4, 7, 10]⟩ 12
      = .returns (getOwner_linear_reference [0, 4, 7, 10] 12) ∧
    ∀ P : Nat, List.length ([0, 4, 7, 10] : PartRanges) = P + 1 →
      ((12 : Int) < List.getD [0, 4, 7, 10] 0 0 →
        DistGraph.getOwner ⟨false, false⟩ ⟨10, 29, none, some [0, 4, 7, 10]⟩ 12
          = .returns (-1)) ∧
      (List.getD [0, 4, 7, 10] P 0 ≤ (12 : Int) →
        DistGraph.getOwner ⟨false, false⟩ ⟨10, 29, none, some [0, 4, 7, 10]⟩ 12
          = .returns (P : Int)) :=
  (getOwner_eq_linear_reference ⟨false, false⟩ ⟨10, 29, none, some [0, 4, 7, 10]⟩
    [0, 4, 7, 10] 12 rfl validTable_0_4_7_10.nonDecreasing).1 rfl

/-- C15: on a state holding a non-decreasing table, in every build and for
all `v ≤ w`: two calls `getOwner v` and `getOwner w` that return, return
ranks `p ≤ q`; without the asserts both calls do return; and when both return
the same rank `p`, `getOwner u` returns `p` for every `u` between `v` and
`w`, so the ids mapped to one rank form an interval. -/
theorem getOwner_monotone (cfg : BuildConfig) (g : DistGraph) (b : PartRanges)
    (v w : Int) (hparts : g.parts = some b) (hb : NonDecreasing b) (hvw : v ≤ w) :
    (∀ p q : Int, g.getOwner cfg v = .returns p → g.getOwner cfg w = .returns q → p ≤ q) ∧
    (cfg.assertsOn = false →
      ∃ p q : Int, g.getOwner cfg v = .returns p ∧ g.getOwner cfg w = .returns q ∧ p ≤ q) ∧
    (∀ (u p : Int), v ≤ u → u ≤ w →
      g.getOwner cfg v = .returns p → g.getOwner cfg w = .returns p →
      g.getOwner cfg u = .returns p) := by
  have hmono := upper_bound_mono hb hvw
  refine ⟨?_, ?_, ?_⟩
  · intro p q hp hq
    have h1 := (getOwner_returns_upper_bound hparts hp).1
    have h2 := (getOwner_returns_upper_bound hparts hq).1
    omega
  · intro hoff
    refine ⟨_, _, getOwner_asserts_off cfg g b v hparts hoff,
      getOwner_asserts_off cfg g b w hparts hoff, ?_⟩
    omega
  · intro u p hvu huw hp hq
    obtain ⟨h1, hon1⟩ := getOwner_returns_upper_bound hparts hp
    obtain ⟨h2, hon2⟩ := getOwner_returns_upper_bound hparts hq
    have hm1 := upper_bound_mono hb hvu
    have hm2 := upper_bound_mono hb huw
    have hu : (upper_bound b u : Int) - 1 = p := by omega
    cases hcfg : cfg.assertsOn with
    | false => rw [getOwner_asserts_off cfg g b u hparts hcfg, hu]
    | true =>
      obtain ⟨hv0, _, _⟩ := hon1 hcfg
      obtain ⟨_, hw1, hwne⟩ := hon2 hcfg
      have hne : upper_bound b u ≠ b.length := by
        intro he
        apply hwne
        omega
      rw [getOwner_asserts_on cfg g b u hparts hcfg, if_pos ⟨by omega, by omega, hne⟩, hu]

/-- Witness of C15: vertices 4 and 8 of the table `[0, 4, 7, 10]`, in a
build without the asserts. -/
theorem getOwner_monotone_witness :
    ∃ p q : Int,
      DistGraph.getOwner ⟨false, false⟩ ⟨10, 29, none, some [0, 4, 7, 10]⟩ 4 = .returns p ∧
      DistGraph.getOwner ⟨false, false⟩ ⟨10, 29, none, some [0, 4, 7, 10]⟩ 8 = .returns q ∧
      p ≤ q :=
  (getOwner_monotone ⟨false, false⟩ ⟨10, 29, none, some [0, 4, 7, 10]⟩ [0, 4, 7, 10] 4 8
    rfl validTable_0_4_7_10.nonDecreasing (by decide)).2.1 rfl

/-! ## Copy construction -/

/-- A state returned by `createLocalGraph` has a local graph and a table. -/
theorem createLocalGraph_returns {cfg : BuildConfig} {g g' : DistGraph} {lnv lne : Int}
    {oparts : Option PartRanges} (h : g.createLocalGraph cfg lnv lne oparts = .returns g') :
    ∃ t, oparts = some t ∧
      g' = ⟨g.totalNumVertices, g.totalNumEdges, some ⟨lnv, lne⟩, some t⟩ := by
  simp only [DistGraph.createLocalGraph] at h
  split at h
  · cases h
  · cases oparts with
    | none => cases h
    | some t =>
      simp only [Outcome.returns.injEq] at h
      exact ⟨t, rfl, h.symm⟩

/-- A pointer that reads a cell is an address, and the cell is allocated there. -/
theorem Memory.deref_some_some {α : Type} {cells : List α} {p : Option Nat} {x : α}
    (h : Memory.deref cells p = some (some x)) :
    ∃ q : Nat, p = some q ∧ cells[q]? = some x := by
  cases p with
  | none => simp [Memory.deref] at h
  | some q =>
    refine ⟨q, rfl, ?_⟩
    cases hq : cells[q]? with
    | none => simp [Memory.deref, hq] at h
    | some y =>
      simp [Memory.deref, hq] at h
      rw [h]

/-- Reading an object whose state has a local graph and a table: the object
is allocated and both of its pointers point to allocated cells. -/
theorem Memory.read_some {m : Memory} {a : Nat} {tnv tne : Int} {lg : Graph}
    {t : PartRanges} (h : m.read a = some ⟨tnv, tne, some lg, some t⟩) :
    ∃ pg pt : Nat, m.objects[a]? = some ⟨tnv, tne, some pg, some pt⟩ ∧
      m.graphs[pg]? = some lg ∧ m.tables[pt]? = some t := by
  unfold Memory.read at h
  cases ho : m.objects[a]? with
  | none =>
    rw [ho] at h
    cases h
  | some o =>
    rw [ho] at h
    simp only at h
    cases hlg : Memory.deref m.graphs o.localGraph with
    | none =>
      rw [hlg] at h
      cases h
    | some lgo =>
      cases hb : Memory.deref m.tables o.parts with
      | none =>
        rw [hlg, hb] at h
        cases h
      | some bo =>
        rw [hlg, hb] at h
        simp only [Option.some.injEq, DistGraph.mk.injEq] at h
        obtain ⟨h1, h2, h3, h4⟩ := h
        subst h3 h4
        obtain ⟨pg, hpg, hgr⟩ := Memory.deref_some_some hlg
        obtain ⟨pt, hpt, htb⟩ := Memory.deref_some_some hb
        refine ⟨pg, pt, ?_, hgr, htb⟩
        obtain ⟨v, e, plg, ppt⟩ := o
        simp only at h1 h2 hpg hpt
        subst h1 h2 hpg hpt
        rfl

/-- An allocated cell is found at the same address after one more allocation. -/
theorem getElem?_append_singleton_of_some {α : Type} {l : List α} {i : Nat} {x y : α}
    (h : l[i]? = some x) : (l ++ [y])[i]? = some x := by
  have hi : i < l.length := by
    by_contra hcon
    rw [List.getElem?_eq_none (by omega)] at h
    cases h
  rw [List.getElem?_append_left hi, h]

/-- The cell of an allocation is at the address that the allocation returns. -/
theorem getElem?_append_singleton_length {α : Type} (l : List α) (y : α) :
    (l ++ [y])[l.length]? = some y := by
  simp

/-- C16: let `g` be the state of an object in memory, returned by
`createLocalGraph`.  The copy constructor returns a new object `c`, other
than the original, and leaves the original as it was.  The copy has the same
`getTotalNumVertices`, `getTotalNumEdges`, `getBase r`, `getBound r`,
`getOwner v` and local graph as `g`, for all `r` and `v` in every build, held
in cells of its own.  After a later `setNumEdges n` on the copy the original
still reads as `g`, so its `getTotalNumEdges` is unchanged, while the copy
reports `n` and keeps everything else. -/
theorem copy_preserves_observables (cfg : BuildConfig) (m : Memory) (a : Nat)
    (g0 g : DistGraph) (lnv lne : Int) (oparts : Option PartRanges)
    (hread : m.read a = some g)
    (hcreate : g0.createLocalGraph cfg lnv lne oparts = .returns g) :
    ∃ (m' : Memory) (c : Nat) (gc : DistGraph),
      m.copyConstruct a = .returns (m', c) ∧ c ≠ a ∧
      m'.read a = some g ∧ m'.read c = some gc ∧ g.copy = .returns gc ∧
      gc.getTotalNumVertices = g.getTotalNumVertices ∧
      gc.getTotalNumEdges = g.getTotalNumEdges ∧
      (∀ (cfg' : BuildConfig) (r : Int),
        gc.getBase cfg' r = g.getBase cfg' r ∧ gc.getBound cfg' r = g.getBound cfg' r) ∧
      (∀ (cfg' : BuildConfig) (v : Int), gc.getOwner cfg' v = g.getOwner cfg' v) ∧
      (∀ cfg' : BuildConfig, gc.getLocalGraph cfg' = g.getLocalGraph cfg' ∧
        g.getLocalGraph cfg' = .returns ⟨lnv, lne⟩) ∧
      (∃ oa oc : DistGraphRep, m'.objects[a]? = some oa ∧ m'.objects[c]? = some oc ∧
        oc.localGraph ≠ oa.localGraph ∧ oc.parts ≠ oa.parts) ∧
      ∀ n : Int,
        (m'.setNumEdges c n).read a = some g ∧
        (m'.setNumEdges c n).read c = some (gc.setNumEdges n) ∧
        (gc.setNumEdges n).getTotalNumEdges = n := by
  obtain ⟨t, _, hg⟩ := createLocalGraph_returns hcreate
  subst hg
  obtain ⟨pg, pt, ho, hgr, htb⟩ := Memory.read_some hread
  have ha : a < m.objects.length := by
    by_contra hcon
    rw [List.getElem?_eq_none (by omega)] at ho
    cases ho
  have hpg : pg < m.graphs.length := by
    by_contra hcon
    rw [List.getElem?_eq_none (by omega)] at hgr
    cases hgr
  have hpt : pt < m.tables.length := by
    by_contra hcon
    rw [List.getElem?_eq_none (by omega)] at htb
    cases htb
  have hca : m.objects.length ≠ a := by omega
  have hoa := getElem?_append_singleton_of_some
    (y := (⟨g0.totalNumVertices, g0.totalNumEdges, some m.graphs.length,
      some m.tables.length⟩ : DistGraphRep)) ho
  have hga := getElem?_append_singleton_of_some (y := (⟨lnv, lne⟩ : Graph)) hgr
  have hta := getElem?_append_singleton_of_some (y := t) htb
  refine ⟨⟨m.graphs ++ [⟨lnv, lne⟩], m.tables ++ [t],
      m.objects ++ [⟨g0.totalNumVertices, g0.totalNumEdges, some m.graphs.length,
        some m.tables.length⟩]⟩,
    m.objects.length, ⟨g0.totalNumVertices, g0.totalNumEdges, some ⟨lnv, lne⟩, some t⟩,
    ?_, hca, ?_, ?_, rfl, rfl, rfl, fun _ _ => ⟨rfl, rfl⟩, fun _ _ => rfl, ?_, ?_, ?_⟩
  · simp [Memory.copyConstruct, ho, hgr, htb]
  · simp [Memory.read, Memory.deref, hoa, hga, hta]
  · simp [Memory.read, Memory.deref]
  · intro cfg'
    refine ⟨rfl, ?_⟩
    cases h : cfg'.assertsOn <;> simp [DistGraph.getLocalGraph, h]
  · refine ⟨_, _, hoa, getElem?_append_singleton_length _ _, ?_, ?_⟩
    · simp only [ne_eq, Option.some.injEq]
      omega
    · simp only [ne_eq, Option.some.injEq]
      omega
  · intro n
    have hoa' : ∀ y : DistGraphRep, (m.objects ++ [y])[a]?
        = some ⟨g0.totalNumVertices, g0.totalNumEdges, some pg, some pt⟩ :=
      fun y => getElem?_append_singleton_of_some ho
    refine ⟨?_, ?_, rfl⟩
    · simp [Memory.read, Memory.setNumEdges, Memory.deref, hoa', hga, hta]
    · simp [Memory.read, Memory.setNumEdges, Memory.deref, DistGraph.setNumEdges]

/-- Witness of C16: a memory with one graph of 10 vertices holding the table
`[0, 4, 7, 10]`, as `createLocalGraph` leaves a fresh object. -/
theorem copy_preserves_observables_witness :
    ∃ (m' : Memory) (c : Nat) (gc : DistGraph),
      Memory.copyConstruct ⟨[⟨4, 4⟩], [[0, 4, 7, 10]], [⟨10, 29, some 0, some 0⟩]⟩ 0
        = .returns (m', c) ∧ c ≠ 0 ∧
      m'.read 0 = some ⟨10, 29, some ⟨4, 4⟩, some [0, 4, 7, 10]⟩ ∧
      m'.read c = some gc ∧
      DistGraph.copy ⟨10, 29, some ⟨4, 4⟩, some [0, 4, 7, 10]⟩ = .returns gc ∧
      gc.getTotalNumVertices
        = DistGraph.getTotalNumVertices ⟨10, 29, some ⟨4, 4⟩, some [0, 4, 7, 10]⟩ ∧
      gc.getTotalNumEdges
        = DistGraph.getTotalNumEdges ⟨10, 29, some ⟨4, 4⟩, some [0, 4, 7, 10]⟩ ∧
      (∀ (cfg' : BuildConfig) (r : Int),
        gc.getBase cfg' r
          = DistGraph.getBase cfg' ⟨10, 29, some ⟨4, 4⟩, some [0, 4, 7, 10]⟩ r ∧
        gc.getBound cfg' r
          = DistGraph.getBound cfg' ⟨10, 29, some ⟨4, 4⟩, some [0, 4, 7, 10]⟩ r) ∧
      (∀ (cfg' : BuildConfig) (v : Int),
        gc.getOwner cfg' v
          = DistGraph.getOwner cfg' ⟨10, 29, some ⟨4, 4⟩, some [0, 4, 7, 10]⟩ v) ∧
      (∀ cfg' : BuildConfig,
        gc.getLocalGraph cfg'
          = DistGraph.getLocalGraph cfg' ⟨10, 29, some ⟨4, 4⟩, some [0, 4, 7, 10]⟩ ∧
        DistGraph.getLocalGraph cfg' ⟨10, 29, some ⟨4, 4⟩, some [0, 4, 7, 10]⟩
          = .returns ⟨4, 4⟩) ∧
      (∃ oa oc : DistGraphRep, m'.objects[0]? = some oa ∧ m'.objects[c]? = some oc ∧
        oc.localGraph ≠ oa.localGraph ∧ oc.parts ≠ oa.parts) ∧
      ∀ n : Int,
        (m'.setNumEdges c n).read 0 = some ⟨10, 29, some ⟨4, 4⟩, some [0, 4, 7, 10]⟩ ∧
        (m'.setNumEdges c n).read c = some (gc.setNumEdges n) ∧
        (gc.setNumEdges n).getTotalNumEdges = n :=
  copy_preserves_observables ⟨true, false⟩
    ⟨[⟨4, 4⟩], [[0, 4, 7, 10]], [⟨10, 29, some 0, some 0⟩]⟩ 0 (DistGraph.construct 10 29)
    ⟨10, 29, some ⟨4, 4⟩, some [0, 4, 7, 10]⟩ 4 4 (some [0, 4, 7, 10]) (by decide)
    (by decide)

/-- Calls other than `createLocalGraph` leave the pointer `localGraph` as it is. -/
theorem exec_localGraph_of_no_create (cfg : BuildConfig) (ops : List Op)
    (hops : ∀ op ∈ ops, op.isCreateLocalGraph = false) :
    ∀ g : DistGraph, (exec cfg g ops).1.localGraph = g.localGraph := by
  induction ops with
  | nil => intro g; rfl
  | cons op ops ih =>
    intro g
    have hop := hops op (List.mem_cons_self _ _)
    have htail := ih (fun o ho => hops o (List.mem_cons_of_mem _ ho))
    simp only [exec]
    cases hs : step cfg g op with
    | returns g' =>
      simp only []
      rw [htail g']
      cases op with
      | createLocalGraph lnv lne oparts => simp [Op.isCreateLocalGraph] at hop
      | setNumEdges n =>
        simp only [step, Outcome.returns.injEq] at hs
        subst hs
        rfl
      | getOwner v =>
        simp only [step] at hs
        cases hq : g.getOwner cfg v <;> rw [hq] at hs <;> simp [Outcome.keeping] at hs
        subst hs
        rfl
      | getBase me =>
        simp only [step] at hs
        cases hq : g.getBase cfg me <;> rw [hq] at hs <;> simp [Outcome.keeping] at hs
        subst hs
        rfl
      | getBound me =>
        simp only [step] at hs
        cases hq : g.getBound cfg me <;> rw [hq] at hs <;> simp [Outcome.keeping] at hs
        subst hs
        rfl
    | assertFails => rfl
    | throwsOutOfRange => rfl
    | undefined => rfl

/-- C17: in every build, `createLocalGraph` called without a table (`NULL`)
never returns a state, so a call that returns was given a table, which the
new state holds; and the copy constructor applied to a `DistGraph` reached
from `construct` by calls none of which is `createLocalGraph` is undefined. -/
theorem createLocalGraph_requires_table (cfg : BuildConfig) (g : DistGraph) (lnv lne : Int)
    (oparts : Option PartRanges) (tnv tne : Int) (ops : List Op) :
    (g.createLocalGraph cfg lnv lne none = .undefined ∨
      g.createLocalGraph cfg lnv lne none = .assertFails) ∧
    (∀ g' : DistGraph, g.createLocalGraph cfg lnv lne oparts = .returns g' →
      ∃ t, oparts = some t ∧ g'.parts = some t) ∧
    ((∀ op ∈ ops, op.isCreateLocalGraph = false) →
      (exec cfg (DistGraph.construct tnv tne) ops).1.copy = .undefined) := by
  refine ⟨?_, ?_, ?_⟩
  · cases h : (cfg.assertsOn && g.localGraph.isSome) <;>
      simp [DistGraph.createLocalGraph, h]
  · intro g' h
    obtain ⟨t, ht, hg⟩ := createLocalGraph_returns h
    exact ⟨t, ht, by rw [hg]⟩
  · intro hops
    have h := exec_localGraph_of_no_create cfg ops hops (DistGraph.construct tnv tne)
    have hnone : (exec cfg (DistGraph.construct tnv tne) ops).1.localGraph = none := by
      rw [h]
      rfl
    simp [DistGraph.copy, hnone]

/-- Witness of C17: copying a graph that was only constructed and had its edge
count corrected. -/
theorem createLocalGraph_requires_table_witness :
    DistGraph.copy
      (exec ⟨false, false⟩ (DistGraph.construct 10 0) [Op.setNumEdges 29, Op.getOwner 3]).1
      = .undefined :=
  (createLocalGraph_requires_table ⟨false, false⟩ (DistGraph.construct 10 0) 4 4 none 10 0
    [Op.setNumEdges 29, Op.getOwner 3]).2.2 (by decide)

/-! ## Statistics of the edge distribution -/

/-- Every degree of the profile is at most the maximum degree. -/
theorem le_maxDegree {degrees : List Nat} {d : Nat} (h : d ∈ degrees) :
    d ≤ maxDegree degrees := by
  induction degrees with
  | nil => cases h
  | cons x xs ih =>
    simp only [maxDegree, List.foldr_cons]
    rcases List.mem_cons.mp h with h | h
    · subst h
      exact le_max_left _ _
    · exact le_trans (ih h) (le_max_right _ _)

/-- The edges of all vertices are the total. -/
theorem edgesBefore_length (degrees : List Nat) :
    edgesBefore degrees degrees.length = degrees.sum := by
  simp [edgesBefore]

/-- Scanning one more vertex adds its degree to the prefix sum. -/
theorem edgesBefore_succ {degrees ds : List Nat} {v d : Nat}
    (h : degrees.drop v = d :: ds) :
    edgesBefore degrees (v + 1) = edgesBefore degrees v + d ∧ degrees.drop (v + 1) = ds := by
  constructor
  · simp [edgesBefore, List.take_add, h]
  · rw [← List.drop_drop, h]
    rfl

/-- The edges of the vertices in `[lo, hi)` are a difference of prefix sums. -/
theorem segment_add_edgesBefore (degrees : List Nat) {lo hi : Nat} (h : lo ≤ hi) :
    ((degrees.drop lo).take (hi - lo)).sum + edgesBefore degrees lo
      = edgesBefore degrees hi := by
  have hsplit : hi = lo + (hi - lo) := by omega
  conv_rhs => rw [hsplit]
  simp only [edgesBefore, List.take_add, List.sum_append]
  omega

/-- Ranks that start at the end of the profile hold nothing. -/
theorem balancedFrom_replicate (degrees : List Nat) (B : Nat) :
    ∀ k : Nat, BalancedFrom degrees B degrees.length (List.replicate k degrees.length) := by
  intro k
  induction k with
  | zero => simp [BalancedFrom]
  | succ k ih =>
    simp only [List.replicate_succ, BalancedFrom]
    exact ⟨le_refl _, by omega, ih⟩

/-- The invariant of the scan.  While rank `p` is open with range start `s`
and `acc` edges: a rank that is not the last has not reached the target; and
either the vertices left are so few that every further rank gets one vertex
at most, or every closed rank reached the target, or the last rank holds a
single vertex.  Then the boundaries produced close `P - p` ranks, each within
the bound. -/
theorem balanceScan_balanced (degrees : List Nat) (P : Nat) :
    ∀ (ds : List Nat) (v p acc s : Nat),
      degrees.drop v = ds → v + ds.length = degrees.length → s ≤ v →
      edgesBefore degrees s + acc = edgesBefore degrees v → p < P →
      (p + 1 < P → acc ≤ degrees.sum / P) →
      ((ds.length ≤ P - p ∧ s = v) ∨ p * degrees.sum ≤ edgesBefore degrees s * P ∨
        (ds = [] ∧ acc ≤ maxDegree degrees)) →
      (balanceScan degrees.sum P ds v p acc).length = P - p ∧
      BalancedFrom degrees (degrees.sum / P + maxDegree degrees) s
        (balanceScan degrees.sum P ds v p acc) := by
  generalize hq : degrees.sum / P = q
  intro ds
  induction ds with
  | nil =>
    intro v p acc s hdrop hlen hsv hacc hp hnl hmode
    simp only [List.length_nil, Nat.add_zero] at hlen
    subst hlen
    have hacc' : edgesBefore degrees s + acc = degrees.sum := by
      rw [hacc, edgesBefore_length]
    have hbound : acc ≤ q + maxDegree degrees := by
      by_cases hlast : p + 1 < P
      · have := hnl hlast
        omega
      · rcases hmode with ⟨_, hs⟩ | hB | ⟨_, hC⟩
        · subst hs
          omega
        · have hP : P = p + 1 := by omega
          have : acc ≤ q := by
            rw [← hq, Nat.le_div_iff_mul_le (by omega)]
            subst hP
            nlinarith
          omega
        · omega
    simp only [balanceScan, List.length_replicate, true_and]
    obtain ⟨k, hk⟩ : ∃ k, P - p = k + 1 := ⟨P - p - 1, by omega⟩
    rw [hk, List.replicate_succ]
    simp only [BalancedFrom]
    exact ⟨hsv, by omega, balancedFrom_replicate degrees _ k⟩
  | cons d ds ih =>
    intro v p acc s hdrop hlen hsv hacc hp hnl hmode
    obtain ⟨hpf, hdrop'⟩ := edgesBefore_succ hdrop
    have hd : d ≤ maxDegree degrees :=
      le_maxDegree (List.mem_of_mem_drop (by rw [hdrop]; exact List.mem_cons_self _ _))
    simp only [List.length_cons] at hlen
    simp only [balanceScan]
    by_cases hlast : P ≤ p + 1
    · simp only [hlast, if_true]
      apply ih (v + 1) p (acc + d) s hdrop' (by omega) (by omega) (by omega) hp
        (fun h => by omega)
      rcases hmode with ⟨hA, hs⟩ | hB | ⟨hC, _⟩
      · right; right
        subst hs
        simp only [List.length_cons] at hA
        have hnil : ds = [] := List.length_eq_zero.mp (by omega)
        exact ⟨hnil, by omega⟩
      · right; left
        exact hB
      · cases hC
    · simp only [hlast, if_false]
      have hnl' := hnl (by omega)
      by_cases hclose : degrees.sum ≤ (acc + d) * P ∨ ds.length < P - p
      · simp only [hclose, if_true, List.length_cons, BalancedFrom]
        have hrec := ih (v + 1) (p + 1) 0 (v + 1) hdrop' (by omega) (le_refl _) (by omega)
          (by omega) (fun _ => Nat.zero_le _) (by
            by_cases hc2 : ds.length < P - p
            · left
              exact ⟨by omega, rfl⟩
            · rcases hmode with ⟨hA, _⟩ | hB | ⟨hC, _⟩
              · simp only [List.length_cons] at hA
                omega
              · right; left
                have hc1 : degrees.sum ≤ (acc + d) * P := by
                  rcases hclose with h | h
                  · exact h
                  · exact absurd h hc2
                have : edgesBefore degrees (v + 1) = edgesBefore degrees s + (acc + d) := by
                  omega
                rw [this]
                nlinarith
              · cases hC)
        refine ⟨by omega, by omega, by omega, hrec.2⟩
      · simp only [hclose, if_false]
        have hc1 : ¬ degrees.sum ≤ (acc + d) * P := fun h => hclose (Or.inl h)
        have hc2 : ¬ ds.length < P - p := fun h => hclose (Or.inr h)
        apply ih (v + 1) p (acc + d) s hdrop' (by omega) (by omega) (by omega) hp
        · intro _
          rw [← hq, Nat.le_div_iff_mul_le (by omega)]
          omega
        · rcases hmode with ⟨hA, _⟩ | hB | ⟨hC, _⟩
          · simp only [List.length_cons] at hA
            omega
          · right; left
            exact hB
          · cases hC

/-- The last boundary of a balanced chain is the number of vertices. -/
theorem balancedFrom_last (degrees : List Nat) (B : Nat) :
    ∀ (l : List Nat) (lo : Nat), BalancedFrom degrees B lo l →
      (lo :: l).getD l.length 0 = degrees.length := by
  intro l
  induction l with
  | nil =>
    intro lo h
    simpa [BalancedFrom] using h
  | cons hi rest ih =>
    intro lo h
    simpa using ih hi h.2.2

/-- The boundaries of a balanced chain are non-decreasing. -/
theorem balancedFrom_mono (degrees : List Nat) (B : Nat) :
    ∀ (l : List Nat) (lo i : Nat), BalancedFrom degrees B lo l → i < l.length →
      (lo :: l).getD i 0 ≤ (lo :: l).getD (i + 1) 0 := by
  intro l
  induction l with
  | nil =>
    intro lo i _ hi
    simp at hi
  | cons hi rest ih =>
    intro lo i h hlt
    cases i with
    | zero => simpa using h.1
    | succ k => simpa using ih hi k h.2.2 (by simpa using hlt)

/-- The edge counts of a balanced chain: one per range, adding up to the
difference of the prefix sums at its ends, each within the bound. -/
theorem balancedFrom_edgeCounts (degrees : List Nat) (B : Nat) :
    ∀ (l : List Nat) (lo : Nat), BalancedFrom degrees B lo l →
      (edgeCounts degrees (lo :: l)).length = l.length ∧
      (edgeCounts degrees (lo :: l)).sum + edgesBefore degrees lo
        = edgesBefore degrees ((lo :: l).getD l.length 0) ∧
      ∀ c ∈ edgeCounts degrees (lo :: l), c ≤ B := by
  intro l
  induction l with
  | nil =>
    intro lo _
    simp [edgeCounts]
  | cons hi rest ih =>
    intro lo h
    obtain ⟨hle, hload, hrest⟩ := h
    obtain ⟨ih1, ih2, ih3⟩ := ih hi hrest
    have hseg := segment_add_edgesBefore degrees hle
    refine ⟨by simp [edgeCounts, ih1], ?_, ?_⟩
    · simp only [edgeCounts, List.sum_cons, List.length_cons, List.getD_cons_succ]
      omega
    · intro c hc
      simp only [edgeCounts, List.mem_cons] at hc
      rcases hc with hc | hc
      · omega
      · exact ih3 c hc

/-- C13: for every degree profile and every `nprocs ≥ 1`, the table that
`balanceEdges` returns has `nprocs + 1` entries with `b[0] = 0`,
`b[nprocs] =` the number of vertices and `b[i] ≤ b[i+1]`; its per-process
edge counts sum to the total `E` exactly; and no process holds more than
`E / nprocs` (rounded down) plus the maximum single-vertex degree. -/
theorem balanceEdges_balanced (nprocs : Nat) (degrees : List Nat) (hP : 0 < nprocs) :
    ValidTable ((balanceEdges nprocs degrees).map Int.ofNat) nprocs degrees.length ∧
    (edgeCounts degrees (balanceEdges nprocs degrees)).length = nprocs ∧
    (edgeCounts degrees (balanceEdges nprocs degrees)).sum = degrees.sum ∧
    ∀ c ∈ edgeCounts degrees (balanceEdges nprocs degrees),
      c ≤ degrees.sum / nprocs + maxDegree degrees := by
  obtain ⟨hlen, hbal⟩ := balanceScan_balanced degrees nprocs degrees 0 0 0 0 rfl (by simp)
    (le_refl _) rfl hP (fun _ => Nat.zero_le _) (Or.inr (Or.inl (by simp)))
  simp only [Nat.sub_zero] at hlen
  have hlast := balancedFrom_last degrees _ _ 0 hbal
  obtain ⟨hc1, hc2, hc3⟩ := balancedFrom_edgeCounts degrees _ _ 0 hbal
  rw [hlen] at hlast hc1 hc2
  rw [hlast, edgesBefore_length] at hc2
  have hzero : (0 : Int) = Int.ofNat 0 := rfl
  refine ⟨⟨?_, ?_, ?_, ?_⟩, hc1, ?_, hc3⟩
  · simp [balanceEdges, hlen]
  · simp [balanceEdges]
  · rw [hzero, List.getD_map]
    simp only [balanceEdges, hlast]
    rfl
  · intro i hi
    rw [hzero, List.getD_map, List.getD_map]
    have := balancedFrom_mono degrees _ _ 0 i hbal (by omega)
    simp only [balanceEdges]
    exact Int.ofNat_le.mpr this
  · simpa [edgesBefore, balanceEdges] using hc2

/-- The scenario of the specification: nine vertices of one edge and a heavy
last vertex, over three processes. -/
theorem balanceEdges_scenario :
    balanceEdges 3 [1, 1, 1, 1, 1, 1, 1, 1, 1, 20] = [0, 8, 9, 10] ∧
    edgeCounts [1, 1, 1, 1, 1, 1, 1, 1, 1, 20] [0, 8, 9, 10] = [8, 1, 20] := by
  constructor <;> decide

/-- Witness of C13: the scenario of the specification. -/
theorem balanceEdges_balanced_witness :
    ValidTable ((balanceEdges 3 [1, 1, 1, 1, 1, 1, 1, 1, 1, 20]).map Int.ofNat) 3
      (List.length [1, 1, 1, 1, 1, 1, 1, 1, 1, 20]) ∧
    (edgeCounts [1, 1, 1, 1, 1, 1, 1, 1, 1, 20]
      (balanceEdges 3 [1, 1, 1, 1, 1, 1, 1, 1, 1, 20])).length = 3 ∧
    (edgeCounts [1, 1, 1, 1, 1, 1, 1, 1, 1, 20]
      (balanceEdges 3 [1, 1, 1, 1, 1, 1, 1, 1, 1, 20])).sum
        = List.sum [1, 1, 1, 1, 1, 1, 1, 1, 1, 20] ∧
    ∀ c ∈ edgeCounts [1, 1, 1, 1, 1, 1, 1, 1, 1, 20]
        (balanceEdges 3 [1, 1, 1, 1, 1, 1, 1, 1, 1, 20]),
      c ≤ List.sum [1, 1, 1, 1, 1, 1, 1, 1, 1, 20] / 3
        + maxDegree [1, 1, 1, 1, 1, 1, 1, 1, 1, 20] :=
  balanceEdges_balanced 3 [1, 1, 1, 1, 1, 1, 1, 1, 1, 20] (by decide)

end Vite
